import Mathlib

/-! Verification of the Wav2Note pitch-detection pipeline (src/main.rs).

The f32 values of the source are modelled by the type F below: a finite value
is F.val x with x real (idealising f32 rounding), and the IEEE special values
NaN and the two infinities are explicit constructors, because the source's
behaviour on NaN and on division by zero is exactly what several claims are
about.  Panics (unwrap, out-of-bounds indexing, unsupported formats) are
modelled by Except.error. -/

inductive F where
  | nan : F
  | pinf : F
  | ninf : F
  | val : ℝ → F

/-- IEEE f32 addition on the model: NaN propagates, opposite infinities give NaN. -/
noncomputable def F.add : F → F → F
  | nan, _ => nan
  | _, nan => nan
  | pinf, ninf => nan
  | ninf, pinf => nan
  | pinf, _ => pinf
  | _, pinf => pinf
  | ninf, _ => ninf
  | _, ninf => ninf
  | val x, val y => val (x + y)

/-- IEEE f32 subtraction on the model. -/
noncomputable def F.sub : F → F → F
  | nan, _ => nan
  | _, nan => nan
  | pinf, pinf => nan
  | ninf, ninf => nan
  | pinf, _ => pinf
  | _, pinf => ninf
  | ninf, _ => ninf
  | _, ninf => pinf
  | val x, val y => val (x - y)

/-- IEEE f32 multiplication on the model: infinity times zero is NaN. -/
noncomputable def F.mul : F → F → F
  | nan, _ => nan
  | _, nan => nan
  | pinf, pinf => pinf
  | pinf, ninf => ninf
  | ninf, pinf => ninf
  | ninf, ninf => pinf
  | pinf, val y => if y = 0 then nan else if 0 < y then pinf else ninf
  | val x, pinf => if x = 0 then nan else if 0 < x then pinf else ninf
  | ninf, val y => if y = 0 then nan else if 0 < y then ninf else pinf
  | val x, ninf => if x = 0 then nan else if 0 < x then ninf else pinf
  | val x, val y => val (x * y)

/-- IEEE f32 division on the model: 0.0/0.0 is NaN, x/0.0 is a signed
infinity for x nonzero, inf/inf is NaN. -/
noncomputable def F.div : F → F → F
  | nan, _ => nan
  | _, nan => nan
  | pinf, pinf => nan
  | pinf, ninf => nan
  | ninf, pinf => nan
  | ninf, ninf => nan
  | pinf, val y => if 0 ≤ y then pinf else ninf
  | ninf, val y => if 0 ≤ y then ninf else pinf
  | val _, pinf => val 0
  | val _, ninf => val 0
  | val x, val y =>
      if y = 0 then (if x = 0 then nan else if 0 < x then pinf else ninf)
      else val (x / y)

/-- f32::cos: NaN on NaN and on the infinities. -/
noncomputable def F.fcos : F → F
  | val x => val (Real.cos x)
  | _ => nan

/-- f32::log2: log2(0) = -inf, log2 of a negative value is NaN. -/
noncomputable def F.flog2 : F → F
  | nan => nan
  | pinf => pinf
  | ninf => nan
  | val x => if x = 0 then ninf else if x < 0 then nan else val (Real.logb 2 x)

/-- The f32 strict-less-than operator: false whenever an operand is NaN. -/
noncomputable def fltF : F → F → Bool
  | F.nan, _ => false
  | _, F.nan => false
  | F.pinf, _ => false
  | _, F.pinf => true
  | F.ninf, F.ninf => false
  | F.ninf, _ => true
  | _, F.ninf => false
  | F.val x, F.val y => decide (x < y)

/-- f32::partial_cmp: None exactly when one operand is NaN, a total order on
the rest. -/
noncomputable def pcmpF : F → F → Option Ordering
  | F.nan, _ => none
  | _, F.nan => none
  | F.pinf, F.pinf => some .eq
  | F.pinf, _ => some .gt
  | _, F.pinf => some .lt
  | F.ninf, F.ninf => some .eq
  | F.ninf, _ => some .lt
  | _, F.ninf => some .gt
  | F.val x, F.val y => some (if x < y then .lt else if x = y then .eq else .gt)

/-- hound::SampleFormat: integer or IEEE float samples. -/
inductive SampleFormat where
  | int : SampleFormat
  | float : SampleFormat

/-- The sample-collection match at the top of main (lines 16-27): only 16-bit
integer samples are supported, each raw value is divided by i16::MAX = 32767;
every other bit-depth/format pair panics. -/
noncomputable def collect_samples (fmt : SampleFormat) (bits : ℕ) (raw : List ℤ) :
    Except String (List ℝ) :=
  match fmt with
  | .int =>
    if bits = 16 then .ok (raw.map fun s => (s : ℝ) / 32767)
    else .error "Unsupported bit depth for integer samples!"
  | .float => .error "Unsupported format!"

/-- The stereo-to-mono step (line 30):
samples.chunks(2).map(|chunk| (chunk[0] + chunk[1]) / 2.0).collect().
chunks(2) leaves a final chunk of length 1 when the input length is odd, and
chunk[1] then panics with an index-out-of-bounds error. -/
noncomputable def mono_reduce : List ℝ → Except String (List ℝ)
  | [] => .ok []
  | [_] => .error "index out of bounds: the len is 1 but the index is 1"
  | x :: y :: rest => (mono_reduce rest).map (fun l => (x + y) / 2 :: l)

/-- Iterator::step_by(k) for k at least 1: keep the elements at indices
0, k, 2k, and so on (the source uses k = 8). -/
def step_by {α : Type} (k : ℕ) (l : List α) : List α :=
  (l.enum.filter fun p => p.1 % k = 0).map Prod.snd

/-- hann_window from src/main.rs (lines 96-98):
0.5 * (1.0 - (2.0 * PI * n as f32 / (size as f32 - 1.0)).cos()).
There is no special case for size = 1: the division is then 0.0/0.0 = NaN. -/
noncomputable def hann_window (n : ℕ) (size : ℕ) : F :=
  F.mul (F.val 0.5)
    (F.sub (F.val 1) (F.fcos (F.div (F.val (2 * Real.pi * n)) (F.val ((size : ℝ) - 1)))))

/-- One step of Iterator::max_by with the comparator
|a, b| a.1.partial_cmp(b.1).unwrap().  core::cmp::max_by keeps the old value
only when compare(new, old) is Less, so ties keep the newer element; the
unwrap panics (Except.error) when partial_cmp returns None, i.e. on NaN. -/
noncomputable def maxByStep (acc : Except String (Option (ℕ × F))) (p : ℕ × F) :
    Except String (Option (ℕ × F)) :=
  match acc with
  | .error e => .error e
  | .ok none => .ok (some p)
  | .ok (some q) =>
    match pcmpF p.2 q.2 with
    | none => .error "called Option::unwrap on a None value"
    | some .lt => .ok (some q)
    | some _ => .ok (some p)

/-- Iterator::max_by over an enumerated list of magnitudes. -/
noncomputable def rustMaxBy (l : List (ℕ × F)) : Except String (Option (ℕ × F)) :=
  l.foldl maxByStep (.ok none)

/-- The peak search of main (lines 72-78):
magnitudes.iter().take(search_range).enumerate()
  .max_by(|a, b| a.1.partial_cmp(b.1).unwrap()).map(|(index, _)| index)
  .unwrap_or(0). -/
noncomputable def maxIndex (ms : List F) (searchRange : ℕ) : Except String ℕ :=
  match rustMaxBy (ms.take searchRange).enum with
  | .error e => .error e
  | .ok none => .ok 0
  | .ok (some p) => .ok p.1

/-- The chromatic table of frequency_to_note_name (line 106). -/
def note_names : List String :=
  "C" :: "C#" :: "D" :: "D#" :: "E" :: "F" :: "F#" :: "G" :: "G#" :: "A" :: "A#" :: "B" :: []

/-- f32::round rounds half away from zero. -/
noncomputable def roundHalfAway (x : ℝ) : ℤ :=
  if 0 ≤ x then ⌊x + 1 / 2⌋ else -⌊-x + 1 / 2⌋

/-- note_number.round() as i32: a Rust float-to-int cast saturates at the
i32 bounds and sends NaN to 0. -/
noncomputable def round_as_i32 : F → ℤ
  | F.nan => 0
  | F.pinf => 2147483647
  | F.ninf => -2147483648
  | F.val x => max (-2147483648) (min 2147483647 (roundHalfAway x))

/-- The continuous note number of frequency_to_note_name (line 102):
12.0 * (frequency / 440.0).log2() + 69.0. -/
noncomputable def note_number (f : F) : F :=
  F.add (F.mul (F.val 12) (F.flog2 (F.div f (F.val 440)))) (F.val 69)

/-- frequency_to_note_name from src/main.rs (lines 101-113).  Rust's % and /
on i32 truncate toward zero (Int.tmod / Int.tdiv), and
note_names[note_index as usize] panics when note_index is negative (the cast
to usize wraps around to a huge index) or at least 12. -/
noncomputable def frequency_to_note_name (f : F) : Except String String :=
  let rounded := round_as_i32 (note_number f)
  let idx := Int.tmod rounded 12
  let octave := Int.tdiv rounded 12 - 1
  if 0 ≤ idx ∧ idx < 12 then .ok (note_names.getD idx.toNat "" ++ toString octave)
  else .error "index out of bounds"

/-- The outcome value of one pipeline run (section 3 of the design): the
source prints one of two reports; note = none / inRange = false corresponds
to the out-of-range branch. -/
structure PitchResult where
  frequencyHz : F
  note : Option String
  inRange : Bool

/-- The final range filter and note report of main (lines 86-92):
if dominant_frequency < 20.0 || dominant_frequency > 4000.0 report
out-of-range and no note, otherwise compute the note name. -/
noncomputable def classify (freq : F) : Except String PitchResult :=
  if fltF freq (F.val 20) || fltF (F.val 4000) freq then
    .ok ⟨freq, none, false⟩
  else
    (frequency_to_note_name freq).map fun nn => ⟨freq, some nn, true⟩

/-- Complex addition on pairs of model floats. -/
noncomputable def caddF (a b : F × F) : F × F := (F.add a.1 b.1, F.add a.2 b.2)

/-- Complex multiplication on pairs of model floats. -/
noncomputable def cmulF (a b : F × F) : F × F :=
  (F.sub (F.mul a.1 b.1) (F.mul a.2 b.2), F.add (F.mul a.1 b.2) (F.mul a.2 b.1))

/-- The forward discrete Fourier transform computed by the planned FFT
(rustfft), as the defining formula: out[k] = sum over j of
in[j] * exp(-2*pi*i*j*k/N), with exp(-i*t) = cos t - i*sin t. -/
noncomputable def dftF (x : List (F × F)) : List (F × F) :=
  (List.range x.length).map fun k =>
    x.enum.foldl
      (fun acc p =>
        caddF acc (cmulF p.2
          (F.val (Real.cos (2 * Real.pi * k * p.1 / x.length)),
           F.val (-Real.sin (2 * Real.pi * k * p.1 / x.length)))))
      (F.val 0, F.val 0)

/-- Complex::norm, i.e. hypot(re, im) = sqrt(re^2 + im^2); per IEEE hypot an
infinite component dominates NaN. -/
noncomputable def cnormF : F × F → F
  | (F.pinf, _) => F.pinf
  | (F.ninf, _) => F.pinf
  | (_, F.pinf) => F.pinf
  | (_, F.ninf) => F.pinf
  | (F.nan, _) => F.nan
  | (_, F.nan) => F.nan
  | (F.val x, F.val y) => F.val (Real.sqrt (x ^ 2 + y ^ 2))

/-- The whole of main() as a pure function from the decoded AudioStream
fields to a PitchResult (the source prints the result instead of returning
it; the two printed report branches correspond to the PitchResult fields).
downsample_factor = 8 and the two-second cap come from lines 33-40;
fft_size is the actual (windowed) sample count (line 49); the search range
is the first quarter of the FFT bins (line 72); the dominant frequency is
max_index as f32 * downsampled_sample_rate as f32 / fft_size as f32. -/
noncomputable def run_pipeline (fmt : SampleFormat) (bits : ℕ) (raw : List ℤ)
    (sample_rate : ℕ) : Except String PitchResult := do
  let samples ← collect_samples fmt bits raw
  let mono ← mono_reduce samples
  let downsampled := step_by 8 mono
  let dsRate := sample_rate / 8
  let limited := downsampled.take (dsRate * 2)
  let windowed := limited.enum.map fun p => F.mul (F.val p.2) (hann_window p.1 limited.length)
  let fft_size := windowed.length
  let buffer := windowed.map fun s => (s, F.val 0)
  let magnitudes := (dftF buffer).map cnormF
  let searchRange := fft_size / 4
  let idx ← maxIndex magnitudes searchRange
  let freq := F.div (F.mul (F.val idx) (F.val dsRate)) (F.val fft_size)
  classify freq

/-! Reduction lemmas for the float model. -/

@[simp] theorem F.add_val (x y : ℝ) : F.add (F.val x) (F.val y) = F.val (x + y) := rfl

@[simp] theorem F.sub_val (x y : ℝ) : F.sub (F.val x) (F.val y) = F.val (x - y) := rfl

@[simp] theorem F.mul_val (x y : ℝ) : F.mul (F.val x) (F.val y) = F.val (x * y) := rfl

@[simp] theorem F.fcos_val (x : ℝ) : F.fcos (F.val x) = F.val (Real.cos x) := rfl

@[simp] theorem F.fcos_nan : F.fcos F.nan = F.nan := rfl

@[simp] theorem F.sub_val_nan (x : ℝ) : F.sub (F.val x) F.nan = F.nan := rfl

@[simp] theorem F.mul_val_nan (x : ℝ) : F.mul (F.val x) F.nan = F.nan := rfl

@[simp] theorem F.add_val_nan (x : ℝ) : F.add (F.val x) F.nan = F.nan := rfl

@[simp] theorem F.add_nan (a : F) : F.add F.nan a = F.nan := by cases a <;> rfl

@[simp] theorem F.mul_nan (a : F) : F.mul F.nan a = F.nan := by cases a <;> rfl

@[simp] theorem F.div_nan (a : F) : F.div F.nan a = F.nan := by cases a <;> rfl

@[simp] theorem F.flog2_nan : F.flog2 F.nan = F.nan := rfl

theorem F.div_val (x y : ℝ) (h : y ≠ 0) : F.div (F.val x) (F.val y) = F.val (x / y) := by
  simp [F.div, h]

@[simp] theorem F.div_val_zero_zero : F.div (F.val 0) (F.val 0) = F.nan := by
  simp [F.div]

@[simp] theorem fltF_nan_left (a : F) : fltF F.nan a = false := by cases a <;> rfl

@[simp] theorem fltF_val_nan (x : ℝ) : fltF (F.val x) F.nan = false := rfl

@[simp] theorem fltF_val (x y : ℝ) : fltF (F.val x) (F.val y) = decide (x < y) := rfl

/-- C8: for Int16 the normalization divides the raw value by 32767, so the
maximum positive raw sample 32767 normalizes to within floating tolerance of
1.0, and the most negative raw sample -32768 to within tolerance of -1.0. -/
theorem int16_normalization_extremes :
    (∀ s : ℤ, collect_samples SampleFormat.int 16 [s] = .ok [(s : ℝ) / 32767]) ∧
    collect_samples SampleFormat.int 16 [32767, -32768] =
      .ok [(32767 : ℝ) / 32767, (-32768 : ℝ) / 32767] ∧
    |(32767 : ℝ) / 32767 - 1| ≤ 1 / 1000 ∧
    |(-32768 : ℝ) / 32767 - (-1)| ≤ 1 / 1000 := by
  refine ⟨fun s => rfl, ?_, ?_, ?_⟩
  · norm_num [collect_samples]
  · norm_num
  · rw [abs_le]
    constructor <;> norm_num

/-- C1 counterexample: a Float32 stream is not passed through unchanged as
the claim states; the run aborts with the "Unsupported format!" panic. -/
theorem float32_not_passed_through :
    collect_samples SampleFormat.float 32 [1] = .error "Unsupported format!" ∧
    collect_samples SampleFormat.float 32 [1] ≠ .ok [(1 : ℝ)] :=
  ⟨rfl, by simp [collect_samples]⟩

/-- C1 amended: only the Int16 encoding is normalized (raw value divided by
32767); every other bit-depth/format pair, including Int24, Int32 and
Float32, fails the run with a hard error -- the code never guesses a scale
and never falls back silently. -/
theorem sample_normalizer_int16_only (fmt : SampleFormat) (bits : ℕ) (raw : List ℤ) :
    (fmt = SampleFormat.int ∧ bits = 16 →
      collect_samples fmt bits raw = .ok (raw.map fun s => (s : ℝ) / 32767)) ∧
    (¬(fmt = SampleFormat.int ∧ bits = 16) →
      ∃ e, collect_samples fmt bits raw = .error e) := by
  constructor
  · rintro ⟨rfl, rfl⟩
    simp [collect_samples]
  · intro h
    cases fmt with
    | int =>
      have hb : bits ≠ 16 := fun hh => h ⟨rfl, hh⟩
      exact ⟨"Unsupported bit depth for integer samples!", by simp [collect_samples, hb]⟩
    | float => exact ⟨_, rfl⟩

/-- C1 witness: the amended theorem evaluated at concrete encodings. -/
theorem sample_normalizer_int16_only_witness :
    collect_samples SampleFormat.int 16 [32767] = .ok [(32767 : ℝ) / 32767] ∧
    (∃ e, collect_samples SampleFormat.int 24 [1] = .error e) ∧
    (∃ e, collect_samples SampleFormat.int 32 [1] = .error e) ∧
    (∃ e, collect_samples SampleFormat.float 32 [1] = .error e) := by
  refine ⟨?_, ?_, ?_, ?_⟩
  · have := (sample_normalizer_int16_only SampleFormat.int 16 [32767]).1 ⟨rfl, rfl⟩
    simpa using this
  · exact (sample_normalizer_int16_only SampleFormat.int 24 [1]).2 (by simp)
  · exact (sample_normalizer_int16_only SampleFormat.int 32 [1]).2 (by simp)
  · exact (sample_normalizer_int16_only SampleFormat.float 32 [1]).2 (by simp)

/-- C9: a dominant frequency outside the 20 to 4000 Hz acceptance band
yields inRange = false and no note. -/
theorem out_of_band_rejected (f : ℝ) (h : f < 20 ∨ 4000 < f) :
    classify (F.val f) = .ok ⟨F.val f, none, false⟩ := by
  unfold classify
  rw [if_pos]
  rcases h with h | h <;> simp [h]

/-- C9 witness: 10.0 Hz and 5000.0 Hz are both rejected as out of range. -/
theorem out_of_band_rejected_witness :
    classify (F.val 10) = .ok ⟨F.val 10, none, false⟩ ∧
    classify (F.val 5000) = .ok ⟨F.val 5000, none, false⟩ :=
  ⟨out_of_band_rejected 10 (Or.inl (by norm_num)),
   out_of_band_rejected 5000 (Or.inr (by norm_num))⟩

/-- Structure of the pair-averaging reduction: an even-length input gives
the list of pair means, an odd-length input panics on chunk[1]. -/
theorem mono_reduce_spec : ∀ xs : List ℝ,
    (xs.length % 2 = 0 →
      ∃ ys, mono_reduce xs = .ok ys ∧ ys.length = xs.length / 2 ∧
        ∀ i, i < ys.length →
          ys.getD i 0 = (xs.getD (2 * i) 0 + xs.getD (2 * i + 1) 0) / 2) ∧
    (xs.length % 2 = 1 →
      mono_reduce xs = .error "index out of bounds: the len is 1 but the index is 1")
  | [] => by
      constructor
      · intro _
        exact ⟨[], rfl, rfl, fun i hi => absurd hi (by simp)⟩
      · intro h
        simp at h
  | [x] => by
      constructor
      · intro h
        simp at h
      · intro _
        rfl
  | x :: y :: rest => by
      obtain ⟨heven, hodd⟩ := mono_reduce_spec rest
      constructor
      · intro h
        have h2 : rest.length % 2 = 0 := by
          simp only [List.length_cons] at h
          omega
        obtain ⟨ys, h1, hlen, helt⟩ := heven h2
        refine ⟨(x + y) / 2 :: ys, ?_, ?_, ?_⟩
        · show (mono_reduce rest).map _ = _
          rw [h1]
          rfl
        · simp only [List.length_cons, hlen]
          omega
        · intro i hi
          cases i with
          | zero => simp
          | succ j =>
            have hj : j < ys.length := by simpa using hi
            have e1 : 2 * (j + 1) = 2 * j + 1 + 1 := by ring
            have e2 : 2 * (j + 1) + 1 = 2 * j + 1 + 1 + 1 := by ring
            simp only [e1, e2, List.getD_cons_succ]
            exact helt j hj
      · intro h
        have h2 : rest.length % 2 = 1 := by
          simp only [List.length_cons] at h
          omega
        show (mono_reduce rest).map _ = _
        rw [hodd h2]
        rfl

/-- C2 amended: the Channel Reducer ignores the declared channel count and
always averages adjacent pairs (hard-coded stereo): an even-length input of
length len yields the len/2 pair means, and an odd-length input panics with
an index-out-of-bounds error instead of silently dropping the trailing
sample. -/
theorem channel_reducer_pairs (xs : List ℝ) :
    (xs.length % 2 = 0 →
      ∃ ys, mono_reduce xs = .ok ys ∧ ys.length = xs.length / 2 ∧
        ∀ i, i < ys.length →
          ys.getD i 0 = (xs.getD (2 * i) 0 + xs.getD (2 * i + 1) 0) / 2) ∧
    (xs.length % 2 = 1 →
      mono_reduce xs = .error "index out of bounds: the len is 1 but the index is 1") :=
  mono_reduce_spec xs

/-- C2 counterexample: one trailing sample is not dropped silently (the run
panics where the claim requires truncation to the empty sequence), and for
channel count 1 the reduction is not the identity. -/
theorem channel_reducer_cex :
    mono_reduce [(1 : ℝ)] = .error "index out of bounds: the len is 1 but the index is 1" ∧
    mono_reduce [(1 : ℝ), 3] = .ok [2] ∧
    (Except.ok [2] : Except String (List ℝ)) ≠ .ok [1, 3] := by
  refine ⟨rfl, ?_, by norm_num⟩
  show (mono_reduce []).map _ = _
  norm_num [mono_reduce, Except.map]

/-- C2 witness: the amended theorem at a length-4 and a length-1 input. -/
theorem channel_reducer_pairs_witness :
    (∃ ys, mono_reduce [(1 : ℝ), 3, 5, 7] = .ok ys ∧ ys.length = 2) ∧
    mono_reduce [(9 : ℝ)] = .error "index out of bounds: the len is 1 but the index is 1" := by
  constructor
  · obtain ⟨ys, h1, h2, _⟩ := (channel_reducer_pairs [(1 : ℝ), 3, 5, 7]).1 (by simp)
    exact ⟨ys, h1, by simpa using h2⟩
  · exact (channel_reducer_pairs [(9 : ℝ)]).2 (by simp)

/-- Helper: the Hann coefficient is a plain value for window sizes at least 2. -/
theorem hann_window_val (n M : ℕ) (h2 : 2 ≤ M) :
    hann_window n M = F.val (0.5 * (1 - Real.cos (2 * Real.pi * n / ((M : ℝ) - 1)))) := by
  have hM : ((M : ℝ) - 1) ≠ 0 := by
    have : (2 : ℝ) ≤ (M : ℝ) := by exact_mod_cast h2
    linarith
  unfold hann_window
  rw [F.div_val _ _ hM]
  simp

/-- Helper: for a window of size 1 the source divides 0.0 by 0.0 and the
coefficient is NaN. -/
theorem hann_window_one : hann_window 0 1 = F.nan := by
  unfold hann_window
  norm_num

/-- C6 counterexample: for M = 1 the Hann coefficient is NaN, not the
value 1 required by the claim. -/
theorem hann_window_m1_cex : hann_window 0 1 = F.nan ∧ F.nan ≠ F.val 1 :=
  ⟨hann_window_one, by simp⟩

/-- C6 amended: for M at least 2 the coefficient is
0.5 * (1 - cos(2 pi n/(M-1))), which is 0 at n = 0 and at n = M-1 and 1 at
the midpoint n = (M-1)/2 for odd M; but for M = 1 the coefficient is NaN
(a 0.0/0.0 division), not 1. -/
theorem hann_window_boundary_midpoint (M : ℕ) (h2 : 2 ≤ M) :
    hann_window 0 M = F.val 0 ∧
    hann_window (M - 1) M = F.val 0 ∧
    (M % 2 = 1 → hann_window ((M - 1) / 2) M = F.val 1) ∧
    hann_window 0 1 = F.nan := by
  have h1 : (1 : ℕ) ≤ M := le_trans (by norm_num) h2
  have hM : ((M : ℝ) - 1) ≠ 0 := by
    have : (2 : ℝ) ≤ (M : ℝ) := by exact_mod_cast h2
    linarith
  refine ⟨?_, ?_, ?_, hann_window_one⟩
  · rw [hann_window_val 0 M h2]
    norm_num
  · rw [hann_window_val _ _ h2, Nat.cast_sub h1, Nat.cast_one, mul_div_assoc,
        div_self hM, mul_one, Real.cos_two_pi]
    norm_num
  · intro hodd
    obtain ⟨m, hm⟩ : ∃ m, M = 2 * m + 1 := ⟨M / 2, by omega⟩
    have hmpos : 1 ≤ m := by omega
    subst hm
    rw [hann_window_val _ _ h2]
    have hidx : ((2 * m + 1 - 1) / 2 : ℕ) = m := by omega
    rw [hidx]
    have hcast : ((2 * m + 1 : ℕ) : ℝ) - 1 = 2 * (m : ℝ) := by
      push_cast
      ring
    rw [hcast]
    have hm0 : (m : ℝ) ≠ 0 := by
      have : (1 : ℝ) ≤ (m : ℝ) := by exact_mod_cast hmpos
      linarith
    have harg : 2 * Real.pi * (m : ℝ) = Real.pi * (2 * (m : ℝ)) := by ring
    rw [harg, mul_div_assoc, div_self (mul_ne_zero two_ne_zero hm0), mul_one, Real.cos_pi]
    norm_num

/-- C6 witness: boundary and midpoint values for the window size 5. -/
theorem hann_window_boundary_midpoint_witness :
    hann_window 0 5 = F.val 0 ∧ hann_window 4 5 = F.val 0 ∧ hann_window 2 5 = F.val 1 := by
  obtain ⟨h0, hl, hm, _⟩ := hann_window_boundary_midpoint 5 (by norm_num)
  exact ⟨h0, by simpa using hl, by simpa using hm (by norm_num)⟩

/-! Peak search: the max_by fold on finite values and on NaN. -/

/-- Scalar model of the max_by fold on finite values: the old pair is kept
only when the new value is strictly smaller, so ties move to the newer
(higher-index) element. -/
noncomputable def lastMax : (ℕ × ℝ) → List (ℕ × ℝ) → (ℕ × ℝ)
  | a, [] => a
  | a, p :: l => lastMax (if p.2 < a.2 then a else p) l

/-- The max_by fold starting from the first element. -/
noncomputable def lastMaxO : List (ℕ × ℝ) → (ℕ × ℝ)
  | [] => (0, 0)
  | a :: l => lastMax a l

theorem maxByStep_ok_some (q p : ℕ × F) :
    maxByStep (.ok (some q)) p =
      match pcmpF p.2 q.2 with
      | none => .error "called Option::unwrap on a None value"
      | some .lt => .ok (some q)
      | some _ => .ok (some p) := rfl

theorem foldl_maxByStep_error (l : List (ℕ × F)) (e : String) :
    l.foldl maxByStep (.error e) = .error e := by
  induction l with
  | nil => rfl
  | cons p t ih =>
    rw [List.foldl_cons]
    exact ih

theorem pcmpF_nan_right (x : F) : pcmpF x F.nan = none := by
  cases x <;> rfl

theorem pcmpF_nan_left (x : F) : pcmpF F.nan x = none := by
  cases x <;> rfl

theorem foldl_maxByStep_val (l : List (ℕ × ℝ)) : ∀ a : ℕ × ℝ,
    (l.map fun p => (p.1, F.val p.2)).foldl maxByStep (.ok (some (a.1, F.val a.2))) =
      .ok (some ((lastMax a l).1, F.val (lastMax a l).2)) := by
  induction l with
  | nil =>
    intro a
    rfl
  | cons p t ih =>
    intro a
    simp only [List.map_cons, List.foldl_cons, lastMax]
    have hstep : maxByStep (.ok (some (a.1, F.val a.2))) (p.1, F.val p.2) =
        .ok (some ((if p.2 < a.2 then a else p).1, F.val (if p.2 < a.2 then a else p).2)) := by
      rw [maxByStep_ok_some]
      by_cases h : p.2 < a.2
      · simp [pcmpF, h]
      · by_cases he : p.2 = a.2
        · simp [pcmpF, h, he]
        · simp [pcmpF, h, he]
    rw [hstep]
    exact ih _

theorem rustMaxBy_val (l : List (ℕ × ℝ)) (hne : l ≠ []) :
    rustMaxBy (l.map fun p => (p.1, F.val p.2)) =
      .ok (some ((lastMaxO l).1, F.val (lastMaxO l).2)) := by
  cases l with
  | nil => cases hne rfl
  | cons a t =>
    unfold rustMaxBy
    rw [List.map_cons, List.foldl_cons]
    have h0 : maxByStep (.ok none) (a.1, F.val a.2) = .ok (some (a.1, F.val a.2)) := rfl
    rw [h0, foldl_maxByStep_val t a]
    rfl

theorem lastMax_of_lt : ∀ (l : List (ℕ × ℝ)) (a : ℕ × ℝ), (∀ p ∈ l, p.2 < a.2) →
    lastMax a l = a
  | [], _, _ => rfl
  | p :: t, a, h => by
    have hp : p.2 < a.2 := h p (by simp)
    simp only [lastMax, if_pos hp]
    exact lastMax_of_lt t a fun q hq => h q (by simp [hq])

theorem lastMax_append (l1 : List (ℕ × ℝ)) : ∀ (a : ℕ × ℝ) (j : ℕ) (v : ℝ)
    (l2 : List (ℕ × ℝ)), a.2 ≤ v → (∀ p ∈ l1, p.2 ≤ v) → (∀ p ∈ l2, p.2 < v) →
    lastMax a (l1 ++ (j, v) :: l2) = (j, v) := by
  induction l1 with
  | nil =>
    intro a j v l2 ha _ h2
    simp only [List.nil_append, lastMax]
    rw [if_neg (not_lt.mpr ha)]
    exact lastMax_of_lt l2 (j, v) h2
  | cons p t ih =>
    intro a j v l2 ha h1 h2
    simp only [List.cons_append, lastMax]
    by_cases h : p.2 < a.2
    · rw [if_pos h]
      exact ih a j v l2 ha (fun q hq => h1 q (by simp [hq])) h2
    · rw [if_neg h]
      exact ih p j v l2 (h1 p (by simp)) (fun q hq => h1 q (by simp [hq])) h2

theorem lastMaxO_append (l1 : List (ℕ × ℝ)) (j : ℕ) (v : ℝ) (l2 : List (ℕ × ℝ))
    (h1 : ∀ p ∈ l1, p.2 ≤ v) (h2 : ∀ p ∈ l2, p.2 < v) :
    lastMaxO (l1 ++ (j, v) :: l2) = (j, v) := by
  cases l1 with
  | nil =>
    simp only [List.nil_append, lastMaxO]
    exact lastMax_of_lt l2 (j, v) h2
  | cons a t =>
    simp only [List.cons_append, lastMaxO]
    exact lastMax_append t a j v l2 (h1 a (by simp)) (fun q hq => h1 q (by simp [hq])) h2

theorem enumFrom_map_val (n : ℕ) : ∀ l : List ℝ,
    (l.map F.val).enumFrom n = (l.enumFrom n).map fun p => (p.1, F.val p.2)
  | [] => rfl
  | x :: t => by
    simp only [List.map_cons, List.enumFrom_cons]
    exact congrArg _ (enumFrom_map_val (n + 1) t)

theorem enum_map_val (l : List ℝ) :
    (l.map F.val).enum = l.enum.map fun p => (p.1, F.val p.2) :=
  enumFrom_map_val 0 l

theorem pcmpF_eq_none (x y : F) (h : pcmpF x y = none) : x = F.nan ∨ y = F.nan := by
  cases x <;> cases y <;> simp_all [pcmpF]

/-- C3 counterexample: two equal maxima at indices 0 < 1; the peak search
returns index 1, not the lowest index 0 that the claim requires. -/
theorem peak_tie_cex :
    maxIndex [F.val 1, F.val 1] 2 = .ok 1 ∧ (Except.ok 1 : Except String ℕ) ≠ .ok 0 := by
  refine ⟨?_, by simp⟩
  have hform : maxIndex [F.val 1, F.val 1] 2 = maxIndex ([(1 : ℝ), 1].map F.val) 2 := rfl
  rw [hform]
  unfold maxIndex
  have htake : ([(1 : ℝ), 1].map F.val).take 2 = [(1 : ℝ), 1].map F.val := rfl
  rw [htake, enum_map_val, rustMaxBy_val _ (by simp [List.enum_cons])]
  have hlm : lastMaxO ([(1 : ℝ), 1].enum) = (1, 1) := by
    show lastMax (0, (1 : ℝ)) [(1, 1)] = (1, 1)
    simp only [lastMax]
    norm_num
  rw [hlm]

/-- C3 amended: ties in the peak search resolve to the HIGHEST index, not
the lowest: Iterator::max_by returns the last of several equally maximal
elements.  For a finite-valued spectrum whose two equal maxima sit at
indices i < j inside the search range, with every other in-range magnitude
strictly smaller, the returned peak index is j. -/
theorem peak_tie_resolves_to_last (ms : List ℝ) (r i j : ℕ) (v : ℝ)
    (hij : i < j) (hjr : j < r) (hrlen : r ≤ ms.length)
    (hiv : ms.getD i 0 = v) (hjv : ms.getD j 0 = v)
    (hother : ∀ k, k < r → k ≠ i → k ≠ j → ms.getD k 0 < v) :
    maxIndex (ms.map F.val) r = .ok j := by
  have htlen : (ms.take r).length = r := by
    rw [List.length_take]
    omega
  have hjt : j < (ms.take r).length := by omega
  have hjenum : j < (ms.take r).enum.length := by
    rw [List.enum_length]
    omega
  have hval : ∀ k, ∀ h : k < (ms.take r).length, (ms.take r)[k] = ms.getD k 0 := by
    intro k h
    rw [List.getElem_take]
    exact (List.getD_eq_getElem ms 0 (by omega)).symm
  have hdecomp : (ms.take r).enum =
      (ms.take r).enum.take j ++ (j, v) :: (ms.take r).enum.drop (j + 1) := by
    have h1 := List.take_append_drop j (ms.take r).enum
    rw [List.drop_eq_getElem_cons hjenum, List.getElem_enum, hval j hjt, hjv] at h1
    exact h1.symm
  have hpref : ∀ p ∈ (ms.take r).enum.take j, p.2 ≤ v := by
    intro p hp
    obtain ⟨k, hk, hkp⟩ := List.mem_iff_getElem.mp hp
    have hkj : k < j := by
      rw [List.length_take, List.enum_length] at hk
      omega
    rw [List.getElem_take, List.getElem_enum, hval k (by omega)] at hkp
    cases hkp
    by_cases hki : k = i
    · subst hki
      rw [hiv]
    · exact le_of_lt (hother k (by omega) hki (by omega))
  have hsuff : ∀ p ∈ (ms.take r).enum.drop (j + 1), p.2 < v := by
    intro p hp
    obtain ⟨k, hk, hkp⟩ := List.mem_iff_getElem.mp hp
    have hklt : j + 1 + k < r := by
      rw [List.length_drop, List.enum_length] at hk
      omega
    rw [List.getElem_drop, List.getElem_enum, hval (j + 1 + k) (by omega)] at hkp
    cases hkp
    exact hother (j + 1 + k) hklt (by omega) (by omega)
  have hne : (ms.take r).enum ≠ [] := by
    intro h0
    have hl := congrArg List.length h0
    rw [List.enum_length, htlen] at hl
    simp at hl
    omega
  unfold maxIndex
  rw [← List.map_take, enum_map_val, rustMaxBy_val _ hne, hdecomp,
      lastMaxO_append _ j v _ hpref hsuff]

/-- C3 witness: the amended theorem on the spectrum [0, 5, 5] (maxima tied
at indices 1 and 2): the peak search returns 2. -/
theorem peak_tie_resolves_to_last_witness :
    maxIndex ([(0 : ℝ), 5, 5].map F.val) 3 = .ok 2 := by
  refine peak_tie_resolves_to_last [(0 : ℝ), 5, 5] 3 1 2 5 (by norm_num) (by norm_num)
    (by norm_num) rfl rfl ?_
  intro k hk h1 h2
  interval_cases k
  · exact show (0 : ℝ) < 5 by norm_num
  · exact absurd rfl h1
  · exact absurd rfl h2

theorem foldl_maxByStep_nan (l : List (ℕ × F)) : ∀ q : ℕ × F,
    (∃ p ∈ l, p.2 = F.nan) → ∃ e, l.foldl maxByStep (.ok (some q)) = .error e := by
  induction l with
  | nil =>
    intro q h
    obtain ⟨p, hp, _⟩ := h
    exact absurd hp (List.not_mem_nil p)
  | cons p t ih =>
    intro q h
    rw [List.foldl_cons]
    by_cases hp : p.2 = F.nan
    · have hs : maxByStep (.ok (some q)) p = .error "called Option::unwrap on a None value" := by
        rw [maxByStep_ok_some, hp, pcmpF_nan_left]
      rw [hs]
      exact ⟨_, foldl_maxByStep_error t _⟩
    · obtain ⟨p', hp', hnan⟩ := h
      rcases List.mem_cons.mp hp' with h1 | hmem
      · exact absurd (h1 ▸ hnan) hp
      · by_cases hq : q.2 = F.nan
        · have hs : maxByStep (.ok (some q)) p =
              .error "called Option::unwrap on a None value" := by
            rw [maxByStep_ok_some, hq, pcmpF_nan_right]
          rw [hs]
          exact ⟨_, foldl_maxByStep_error t _⟩
        · have hs : maxByStep (.ok (some q)) p = .ok (some q) ∨
              maxByStep (.ok (some q)) p = .ok (some p) := by
            rcases hc : pcmpF p.2 q.2 with _ | o
            · rcases pcmpF_eq_none _ _ hc with h' | h'
              · exact absurd h' hp
              · exact absurd h' hq
            · rcases o with _ | _ | _
              all_goals rw [maxByStep_ok_some, hc]
              · exact Or.inl rfl
              · exact Or.inr rfl
              · exact Or.inr rfl
          rcases hs with hs | hs
          · rw [hs]
            exact ih q ⟨p', hmem, hnan⟩
          · rw [hs]
            exact ih p ⟨p', hmem, hnan⟩

theorem rustMaxBy_nan (l : List (ℕ × F)) (hlen : 2 ≤ l.length)
    (hnan : ∃ p ∈ l, p.2 = F.nan) : ∃ e, rustMaxBy l = .error e := by
  rcases l with _ | ⟨a, _ | ⟨b, t2⟩⟩
  · simp at hlen
  · simp at hlen
  · unfold rustMaxBy
    rw [List.foldl_cons]
    have h0 : maxByStep (.ok none) a = .ok (some a) := rfl
    rw [h0]
    obtain ⟨p, hp, hpn⟩ := hnan
    rcases List.mem_cons.mp hp with h1 | hmem
    · rw [List.foldl_cons]
      have hs : maxByStep (.ok (some a)) b = .error "called Option::unwrap on a None value" := by
        rw [maxByStep_ok_some]
        have ha2 : a.2 = F.nan := by
          rw [← h1]
          exact hpn
        have han : pcmpF b.2 a.2 = none := by
          rw [ha2]
          exact pcmpF_nan_right b.2
        rw [han]
      rw [hs]
      exact ⟨_, foldl_maxByStep_error t2 _⟩
    · exact foldl_maxByStep_nan (b :: t2) a ⟨p, hmem, hpn⟩

/-- C4 counterexample: a spectrum containing NaN makes the peak search panic
(the partial_cmp unwrap) instead of completing with NaN treated as lowest. -/
theorem peak_nan_cex :
    maxIndex [F.val 1, F.nan] 2 = .error "called Option::unwrap on a None value" := rfl

/-- C4 corrected: NaN is not treated as the lowest magnitude; any comparison
involving NaN makes the unwrap panic, so whenever the restricted search
range has at least two entries and one of them is NaN, the peak search fails
instead of completing. -/
theorem peak_search_panics_on_nan (ms : List F) (r : ℕ)
    (hlen : 2 ≤ (ms.take r).length) (hnan : F.nan ∈ ms.take r) :
    ∃ e, maxIndex ms r = .error e := by
  have h2 : 2 ≤ (ms.take r).enum.length := by
    rw [List.enum_length]
    exact hlen
  have hmem : ∃ p ∈ (ms.take r).enum, p.2 = F.nan := by
    obtain ⟨k, hk, hkv⟩ := List.mem_iff_getElem.mp hnan
    refine ⟨(k, F.nan), List.mem_iff_getElem.mpr ⟨k, ?_, ?_⟩, rfl⟩
    · rw [List.enum_length]
      exact hk
    · rw [List.getElem_enum, hkv]
  obtain ⟨e, he⟩ := rustMaxBy_nan _ h2 hmem
  refine ⟨e, ?_⟩
  unfold maxIndex
  rw [he]

/-- C4 witness: the corrected theorem at a concrete two-entry spectrum. -/
theorem peak_search_panics_on_nan_witness :
    ∃ e, maxIndex [F.val 1, F.nan] 2 = .error e :=
  peak_search_panics_on_nan [F.val 1, F.nan] 2 (by simp) (by simp)

/-! Bracketing the base-2 logarithm by rational powers, for the Note Mapper. -/

theorem logb2_self : Real.logb 2 2 = 1 := by
  show Real.log 2 / Real.log 2 = 1
  exact div_self (ne_of_gt (Real.log_pos one_lt_two))

theorem le_logb2_of_one_le (x : ℝ) (a n : ℕ) (hn : 0 < n) (hx : 0 < x)
    (h : 1 ≤ x ^ n * 2 ^ a) : -(a : ℝ) / n ≤ Real.logb 2 x := by
  have hpow : (1 : ℝ) / 2 ^ a ≤ x ^ n := by
    rw [div_le_iff (by positivity)]
    linarith
  have h1 : Real.logb 2 ((1 : ℝ) / 2 ^ a) ≤ Real.logb 2 (x ^ n) :=
    Real.logb_le_logb_of_le one_lt_two (by positivity) hpow
  rw [one_div, Real.logb_inv, Real.logb_pow, Real.logb_pow, logb2_self, mul_one] at h1
  rw [div_le_iff (by positivity : (0 : ℝ) < (n : ℝ))]
  linarith

theorem logb2_lt_neg (x : ℝ) (a n : ℕ) (hn : 0 < n) (hx : 0 < x)
    (h : x ^ n * 2 ^ a < 1) : Real.logb 2 x < -(a : ℝ) / n := by
  have hpow : x ^ n < (1 : ℝ) / 2 ^ a := by
    rw [lt_div_iff (by positivity)]
    linarith
  have h1 : Real.logb 2 (x ^ n) < Real.logb 2 ((1 : ℝ) / 2 ^ a) :=
    Real.logb_lt_logb one_lt_two (by positivity) hpow
  rw [one_div, Real.logb_inv, Real.logb_pow, Real.logb_pow, logb2_self, mul_one] at h1
  rw [lt_div_iff (by positivity : (0 : ℝ) < (n : ℝ))]
  linarith

theorem logb2_lt_pos (x : ℝ) (a n : ℕ) (hn : 0 < n) (hx : 0 < x)
    (h : x ^ n < 2 ^ a) : Real.logb 2 x < (a : ℝ) / n := by
  have h1 : Real.logb 2 (x ^ n) < Real.logb 2 ((2 : ℝ) ^ a) :=
    Real.logb_lt_logb one_lt_two (by positivity) h
  rw [Real.logb_pow, Real.logb_pow, logb2_self, mul_one] at h1
  rw [lt_div_iff (by positivity : (0 : ℝ) < (n : ℝ))]
  linarith

/-- Helper: on a positive finite frequency the continuous note number is the
plain value 12 * log2(f/440) + 69. -/
theorem note_number_val (f : ℝ) (hf : 0 < f) :
    note_number (F.val f) = F.val (12 * Real.logb 2 (f / 440) + 69) := by
  unfold note_number
  rw [F.div_val _ _ (by norm_num)]
  simp only [F.flog2]
  rw [if_neg (by positivity), if_neg (not_lt.mpr (le_of_lt (by positivity)))]
  simp

/-- Helper: half-away-from-zero rounding of a nonnegative value in a unit
window. -/
theorem roundHalfAway_eq (x : ℝ) (m : ℤ) (hx : 0 ≤ x)
    (h1 : (m : ℝ) - 1 / 2 ≤ x) (h2 : x < (m : ℝ) + 1 / 2) :
    roundHalfAway x = m := by
  unfold roundHalfAway
  rw [if_pos hx, Int.floor_eq_iff]
  constructor
  · linarith
  · push_cast
    linarith

/-- Helper: the saturating i32 cast is the identity inside the i32 range. -/
theorem round_as_i32_val (x : ℝ) (h1 : -2147483648 ≤ roundHalfAway x)
    (h2 : roundHalfAway x ≤ 2147483647) :
    round_as_i32 (F.val x) = roundHalfAway x := by
  show max (-2147483648) (min 2147483647 (roundHalfAway x)) = roundHalfAway x
  rw [min_eq_right h2, max_eq_right h1]

/-- Helper: bounds on the continuous note number over the acceptance band. -/
theorem inband_note_number_bounds (f : ℝ) (h20 : 20 ≤ f) (h4000 : f ≤ 4000) :
    (14.5 : ℝ) ≤ 12 * Real.logb 2 (f / 440) + 69 ∧
    12 * Real.logb 2 (f / 440) + 69 < (107.5 : ℝ) := by
  constructor
  · have hm : Real.logb 2 ((20 : ℝ) / 440) ≤ Real.logb 2 (f / 440) :=
      Real.logb_le_logb_of_le one_lt_two (by norm_num)
        ((div_le_div_right (by norm_num)).mpr h20)
    have hl : -(109 : ℝ) / 24 ≤ Real.logb 2 ((20 : ℝ) / 440) := by
      have h := le_logb2_of_one_le ((20 : ℝ) / 440) 109 24 (by norm_num) (by norm_num)
        (by norm_num)
      exact_mod_cast h
    linarith
  · have hm : Real.logb 2 (f / 440) ≤ Real.logb 2 ((4000 : ℝ) / 440) :=
      Real.logb_le_logb_of_le one_lt_two (by positivity)
        ((div_le_div_right (by norm_num)).mpr h4000)
    have hu : Real.logb 2 ((4000 : ℝ) / 440) < (77 : ℝ) / 24 := by
      have h := logb2_lt_pos ((4000 : ℝ) / 440) 77 24 (by norm_num) (by norm_num)
        (by norm_num)
      exact_mod_cast h
    linarith

/-- Helper: the rounded note number over the acceptance band lies in
[15, 107]. -/
theorem inband_rounded_bounds (f : ℝ) (h20 : 20 ≤ f) (h4000 : f ≤ 4000) :
    15 ≤ roundHalfAway (12 * Real.logb 2 (f / 440) + 69) ∧
    roundHalfAway (12 * Real.logb 2 (f / 440) + 69) ≤ 107 := by
  obtain ⟨hl, hu⟩ := inband_note_number_bounds f h20 h4000
  have h0 : (0 : ℝ) ≤ 12 * Real.logb 2 (f / 440) + 69 := by linarith
  unfold roundHalfAway
  rw [if_pos h0]
  constructor
  · refine Int.le_floor.mpr ?_
    push_cast
    linarith
  · have h108 : ⌊12 * Real.logb 2 (f / 440) + 69 + 1 / 2⌋ < 108 := by
      refine Int.floor_lt.mpr ?_
      push_cast
      linarith
    omega

/-- Helper: on an in-band finite frequency the mapper succeeds and produces
the table entry at the (nonnegative) truncated remainder and the truncated
division octave. -/
theorem frequency_to_note_name_inband (f : ℝ) (h20 : 20 ≤ f) (h4000 : f ≤ 4000) :
    frequency_to_note_name (F.val f) =
      .ok (note_names.getD ((roundHalfAway (12 * Real.logb 2 (f / 440) + 69)) % 12).toNat ""
        ++ toString ((roundHalfAway (12 * Real.logb 2 (f / 440) + 69)) / 12 - 1)) := by
  have hf : 0 < f := by linarith
  obtain ⟨h15, h107⟩ := inband_rounded_bounds f h20 h4000
  simp only [frequency_to_note_name]
  rw [note_number_val f hf, round_as_i32_val _ (by omega) (by omega)]
  have hge : 0 ≤ roundHalfAway (12 * Real.logb 2 (f / 440) + 69) := by omega
  rw [Int.tmod_eq_emod hge (by norm_num), Int.tdiv_eq_ediv hge (by norm_num)]
  rw [if_pos ⟨Int.emod_nonneg _ (by norm_num), Int.emod_lt_of_pos _ (by norm_num)⟩]

/-- Spec-side formula for the note name, in the claim's words: index
((roundedN mod 12) + 12) mod 12 into the chromatic table starting at C,
octave floor(roundedN / 12) - 1 (Int.emod and Int.fdiv are the mathematical
remainder and floor division). -/
noncomputable def note_name_claim (r : ℤ) : String :=
  note_names.getD (((r % 12) + 12) % 12).toNat "" ++ toString (Int.fdiv r 12 - 1)

/-- C7: for every in-band frequency the Note Mapper computes
n = 12 * log2(f/440) + 69, rounds half away from zero, indexes the chromatic
table at ((roundedN mod 12) + 12) mod 12 and uses octave
floor(roundedN/12) - 1; exactly 440 Hz maps to A4 and exactly 261.63 Hz maps
to C4. -/
theorem note_mapper_formula (f : ℝ) (h20 : 20 ≤ f) (h4000 : f ≤ 4000) :
    frequency_to_note_name (F.val f) =
      .ok (note_name_claim (roundHalfAway (12 * Real.logb 2 (f / 440) + 69))) ∧
    frequency_to_note_name (F.val 440) = .ok "A4" ∧
    frequency_to_note_name (F.val 261.63) = .ok "C4" := by
  refine ⟨?_, ?_, ?_⟩
  · rw [frequency_to_note_name_inband f h20 h4000]
    unfold note_name_claim
    have h1 : ((roundHalfAway (12 * Real.logb 2 (f / 440) + 69) % 12) + 12) % 12 =
        roundHalfAway (12 * Real.logb 2 (f / 440) + 69) % 12 := by omega
    rw [h1, Int.fdiv_eq_ediv _ (by norm_num)]
  · rw [frequency_to_note_name_inband 440 (by norm_num) (by norm_num)]
    have hlb : Real.logb 2 ((440 : ℝ) / 440) = 0 := by
      norm_num [Real.logb_one]
    rw [hlb]
    have h69 : (12 : ℝ) * 0 + 69 = 69 := by norm_num
    rw [h69]
    have hrnd : roundHalfAway 69 = 69 :=
      roundHalfAway_eq 69 69 (by norm_num) (by norm_num) (by norm_num)
    rw [hrnd]
    rfl
  · rw [frequency_to_note_name_inband 261.63 (by norm_num) (by norm_num)]
    have hrnd : roundHalfAway (12 * Real.logb 2 ((261.63 : ℝ) / 440) + 69) = 60 := by
      have hl := le_logb2_of_one_le ((261.63 : ℝ) / 440) 19 24 (by norm_num) (by norm_num)
        (by norm_num)
      have hu := logb2_lt_neg ((261.63 : ℝ) / 440) 17 24 (by norm_num) (by norm_num)
        (by norm_num)
      have hl' : -(19 : ℝ) / 24 ≤ Real.logb 2 ((261.63 : ℝ) / 440) := by exact_mod_cast hl
      have hu' : Real.logb 2 ((261.63 : ℝ) / 440) < -(17 : ℝ) / 24 := by exact_mod_cast hu
      refine roundHalfAway_eq _ 60 (by linarith) (by push_cast; linarith)
        (by push_cast; linarith)
    rw [hrnd]
    rfl

/-- C7 witness: the theorem applied at the two concrete frequencies. -/
theorem note_mapper_formula_witness :
    frequency_to_note_name (F.val 440) = .ok "A4" ∧
    frequency_to_note_name (F.val 261.63) = .ok "C4" := by
  obtain ⟨_, h1, h2⟩ := note_mapper_formula 440 (by norm_num) (by norm_num)
  exact ⟨h1, h2⟩

/-- C10: over the acceptance band the rounded note number is at least 15, so
the truncated remainder by 12 is already in [0, 12) without the +12
adjustment, the chromatic-table lookup is in bounds, truncating division by
12 coincides with floor division, and the mapper never fails. -/
theorem note_mapper_inband_safe (f : ℝ) (h20 : 20 ≤ f) (h4000 : f ≤ 4000) :
    15 ≤ round_as_i32 (note_number (F.val f)) ∧
    0 ≤ Int.tmod (round_as_i32 (note_number (F.val f))) 12 ∧
    Int.tmod (round_as_i32 (note_number (F.val f))) 12 < 12 ∧
    Int.tmod (round_as_i32 (note_number (F.val f))) 12 =
      (Int.tmod (round_as_i32 (note_number (F.val f))) 12 + 12) % 12 ∧
    Int.tdiv (round_as_i32 (note_number (F.val f))) 12 =
      Int.fdiv (round_as_i32 (note_number (F.val f))) 12 ∧
    ∃ s, frequency_to_note_name (F.val f) = .ok s := by
  have hf : 0 < f := by linarith
  obtain ⟨h15, h107⟩ := inband_rounded_bounds f h20 h4000
  have hr : round_as_i32 (note_number (F.val f)) =
      roundHalfAway (12 * Real.logb 2 (f / 440) + 69) := by
    rw [note_number_val f hf, round_as_i32_val _ (by omega) (by omega)]
  rw [hr]
  have hge : 0 ≤ roundHalfAway (12 * Real.logb 2 (f / 440) + 69) := by omega
  rw [Int.tmod_eq_emod hge (by norm_num), Int.tdiv_eq_ediv hge (by norm_num)]
  refine ⟨by omega, by omega, by omega, by omega, ?_, ?_⟩
  · rw [Int.fdiv_eq_ediv _ (by norm_num)]
  · exact ⟨_, frequency_to_note_name_inband f h20 h4000⟩

/-- C10 witness: the theorem evaluated at 440 Hz. -/
theorem note_mapper_inband_safe_witness :
    15 ≤ round_as_i32 (note_number (F.val 440)) ∧
    ∃ s, frequency_to_note_name (F.val 440) = .ok s := by
  obtain ⟨h1, _, _, _, _, h6⟩ := note_mapper_inband_safe 440 (by norm_num) (by norm_num)
  exact ⟨h1, h6⟩

/-- Helper: the mapper on a NaN frequency: NaN propagates to the note
number, NaN as i32 is 0, and the result is the garbage note C-1. -/
theorem frequency_to_note_name_nan : frequency_to_note_name F.nan = .ok "C-1" := rfl

/-- C5: an empty AudioStream is NOT rejected: no EmptyInput error exists in
the code.  The peak index defaults to 0 via unwrap_or, the dominant
frequency is 0 * rate / 0 = NaN, NaN passes the range filter because both
float comparisons are false, and the run completes with the garbage note
C-1 instead of failing. -/
theorem empty_input_not_rejected :
    run_pipeline SampleFormat.int 16 [] 44100 = .ok ⟨F.nan, some "C-1", true⟩ := by
  have hrun : run_pipeline SampleFormat.int 16 [] 44100 =
      classify (F.div (F.mul (F.val ((0 : ℕ) : ℝ)) (F.val (((44100 / 8 : ℕ)) : ℝ)))
        (F.val ((0 : ℕ) : ℝ))) := rfl
  have hfreq : F.div (F.mul (F.val ((0 : ℕ) : ℝ)) (F.val (((44100 / 8 : ℕ)) : ℝ)))
      (F.val ((0 : ℕ) : ℝ)) = F.nan := by
    rw [F.mul_val]
    simp only [F.div]
    norm_num
  have hclass : classify F.nan = .ok ⟨F.nan, some "C-1", true⟩ := by
    unfold classify
    rw [if_neg (by simp)]
    rw [frequency_to_note_name_nan]
    rfl
  rw [hrun, hfreq, hclass]
